import Mathlib

/-!
The program ttf2raster: contour tracing, coordinate mapping and node overlay

A shallow embedding of `src/ttf2raster/main.go` (functions `rp`, `drawContour`,
`addGlyph`, `showNodes`) together with the properties of these functions.

Conventions of the embedding.

* Go `int32` values (`truetype.Point.X/Y`, `raster.Fix32`) are integers; every
  `int32` operation that can leave the 32-bit range is followed by `wrap32`.
  Go `/` on integers truncates toward zero, which is `Int.tdiv`.
* `raster.Rasterizer` belongs to the freetype library.  The program only talks
  to it through `Clear`, `Start`, `Add1` and `Add2`; the embedding records the
  sequence of these calls since the last `Clear` (the path).
* `image.RGBA` belongs to the Go standard library.  It is embedded as its
  bounds rectangle together with the colour found at every pixel.
-/

namespace Ttf2Raster

/-! ## Machine integers -/

/-- Two's complement wrap-around of an integer into the `int32` range. -/
def wrap32 (v : Int) : Int := (v + 2147483648) % 4294967296 - 2147483648

/-- The integer `v` is representable as an `int32`. -/
def InInt32 (v : Int) : Prop := -2147483648 ≤ v ∧ v ≤ 2147483647

instance (v : Int) : Decidable (InInt32 v) := by
  unfold InInt32; infer_instance

/-! ## Library data types -/

/-- The type `truetype.Point`: `X, Y int32` and `Flags uint32`. -/
structure truetype.Point where
  X : Int
  Y : Int
  Flags : Nat
deriving DecidableEq, Repr

/-- The type `raster.Point`: `X, Y Fix32`, a 24.8 fixed point `int32`. -/
structure raster.Point where
  X : Int
  Y : Int
deriving DecidableEq, Repr

/-- One call received by the rasterizer: `Start(a)` is a move-to, `Add1(b)` a
line-to and `Add2(b, c)` a quadratic-curve-to with control `b` and endpoint `c`. -/
inductive raster.Prim where
  | Start (a : raster.Point)
  | Add1 (b : raster.Point)
  | Add2 (b c : raster.Point)
deriving DecidableEq, Repr

/-- The type `raster.Rasterizer`, seen as the list of path calls it received. -/
structure raster.Rasterizer where
  path : List raster.Prim
deriving DecidableEq, Repr

/-- Method `r.Clear()`. -/
def raster.Rasterizer.Clear (_r : raster.Rasterizer) : raster.Rasterizer := ⟨[]⟩

/-- Method `r.Start(a)`. -/
def raster.Rasterizer.Start (r : raster.Rasterizer) (a : raster.Point) : raster.Rasterizer := ⟨r.path ++ [raster.Prim.Start a]⟩

/-- Method `r.Add1(b)`. -/
def raster.Rasterizer.Add1 (r : raster.Rasterizer) (b : raster.Point) : raster.Rasterizer := ⟨r.path ++ [raster.Prim.Add1 b]⟩

/-- Method `r.Add2(b, c)`. -/
def raster.Rasterizer.Add2 (r : raster.Rasterizer) (b c : raster.Point) : raster.Rasterizer :=
  ⟨r.path ++ [raster.Prim.Add2 b c]⟩

/-- The type `truetype.GlyphBuf`, restricted to the fields the program reads.
`Point` is the slice `g.Point` (its first `len` elements), `PointSpare` holds the
elements of its backing array between `len` and `cap`, `End` is `g.End []int`. -/
structure truetype.GlyphBuf where
  Point : List truetype.Point
  PointSpare : List truetype.Point
  End : List Int
deriving DecidableEq, Repr

/-! ## `rp` -/

/-- Function `rp` (main.go 117-123). -/
def rp (p : truetype.Point) : raster.Point :=
  let x := wrap32 (20 + p.X.tdiv 4)
  let y := wrap32 (380 - p.Y.tdiv 4)
  { X := wrap32 (x * 256)
    Y := wrap32 (y * 256) }

/-! ## `drawContour` -/

/-- The test `p.Flags&0x01 != 0`. -/
def onCurve (p : truetype.Point) : Bool := p.Flags &&& 0x01 != 0

/-- The variables the loop of `drawContour` carries from one iteration to the
next: the rasterizer and the pair `q0, on0`. -/
structure LoopState where
  r : raster.Rasterizer
  q0 : raster.Point
  on0 : Bool
deriving DecidableEq, Repr

/-- One iteration of the loop `for _, p := range ps[1:]` (main.go 55-75). -/
def loopBody (s : LoopState) (p : truetype.Point) : LoopState :=
  let q := rp p
  let onp := onCurve p
  let r1 :=
    if onp then
      if s.on0 then s.r.Add1 q else s.r.Add2 s.q0 q
    else
      if s.on0 then s.r
      else
        let mid : raster.Point :=
          { X := (wrap32 (s.q0.X + q.X)).tdiv 2
            Y := (wrap32 (s.q0.Y + q.Y)).tdiv 2 }
        s.r.Add2 s.q0 mid
  { r := r1, q0 := q, on0 := onp }

/-- The loop `for _, p := range ps[1:]`, run over the points `ps`. -/
def drawLoop (s : LoopState) : List truetype.Point → LoopState
  | [] => s
  | p :: ps => drawLoop (loopBody s p) ps

/-- The statements after the loop (main.go 76-81): close the curve. -/
def closeContour (start : raster.Point) (s : LoopState) : raster.Rasterizer :=
  if s.on0 then s.r.Add1 start else s.r.Add2 s.q0 start

/-- Function `drawContour` (main.go 48-82). -/
def drawContour (r : raster.Rasterizer) (ps : List truetype.Point) : raster.Rasterizer :=
  match ps with
  | [] => r
  | p0 :: rest =>
    let start := rp p0
    let r := r.Start start
    closeContour start (drawLoop { r := r, q0 := start, on0 := true } rest)

/-- The loop state of `drawContour r ps` when the loop has processed the points
`ps[1], ..., ps[k-1]` and is about to process `ps[k]` (for `k = len(ps)`: about
to close the curve).  `none` for an empty contour, which never enters the loop. -/
def stateBefore (r : raster.Rasterizer) (ps : List truetype.Point) (k : Nat) : Option LoopState :=
  match ps with
  | [] => none
  | p0 :: rest =>
    some (drawLoop { r := r.Start (rp p0), q0 := rp p0, on0 := true } (rest.take (k - 1)))

/-! ## `addGlyph` -/

/-- The slice expression `s[lo:hi]` on a slice with elements `s` and spare
capacity `spare`: it panics (`none`) unless `0 <= lo <= hi <= cap(s)`. -/
def sliceExpr {α : Type} (s spare : List α) (lo hi : Int) : Option (List α) :=
  if 0 ≤ lo ∧ lo ≤ hi ∧ hi ≤ ((s.length + spare.length : Nat) : Int) then
    some (((s ++ spare).drop lo.toNat).take (hi.toNat - lo.toNat))
  else none

/-- The loop `for _, e1 := range g.End` of `addGlyph` (main.go 87-90). -/
def addGlyphLoop (g : truetype.GlyphBuf) (r : raster.Rasterizer) (e0 : Int) : List Int → Option raster.Rasterizer
  | [] => some r
  | e1 :: es =>
    match sliceExpr g.Point g.PointSpare e0 e1 with
    | none => none
    | some ps => addGlyphLoop g (drawContour r ps) e1 es

/-- Function `addGlyph` (main.go 84-91); `none` is a run-time panic. -/
def addGlyph (r : raster.Rasterizer) (g : truetype.GlyphBuf) : Option raster.Rasterizer :=
  addGlyphLoop g r.Clear 0 g.End

/-! ## `showNodes` -/

/-- The type `color.RGBA`. -/
structure color.RGBA where
  R : Nat
  G : Nat
  B : Nat
  A : Nat
deriving DecidableEq, Repr

/-- The type `image.Point`. -/
structure image.Point where
  X : Int
  Y : Int
deriving DecidableEq, Repr

/-- The type `image.Rectangle`. -/
structure image.Rectangle where
  Min : image.Point
  Max : image.Point
deriving DecidableEq, Repr

/-- Method `p.In(r)` of `image.Point`:
`r.Min.X <= p.X && p.X < r.Max.X && r.Min.Y <= p.Y && p.Y < r.Max.Y`. -/
def image.Point.In (p : image.Point) (r : image.Rectangle) : Bool :=
  decide (r.Min.X ≤ p.X) && decide (p.X < r.Max.X) &&
    decide (r.Min.Y ≤ p.Y) && decide (p.Y < r.Max.Y)

/-- The type `image.RGBA`: the bounds `Rect` and the colour at every pixel. -/
structure image.RGBA where
  Rect : image.Rectangle
  pix : Int → Int → color.RGBA

/-- Method `m.Bounds()`. -/
def image.RGBA.Bounds (m : image.RGBA) : image.Rectangle := m.Rect

/-- Method `m.Set(x, y, c)` called with a `color.RGBA`: a pixel outside the
bounds is left alone, a pixel inside receives `c`. -/
def image.RGBA.Set (m : image.RGBA) (x y : Int) (c : color.RGBA) : image.RGBA :=
  if (image.Point.mk x y).In m.Rect then
    { Rect := m.Rect
      pix := fun x1 y1 => if x1 = x ∧ y1 = y then c else m.pix x1 y1 }
  else m

/-- The `switch p.Flags & 0x01` of `showNodes` (main.go 100-106); `none` is the
nil colour. -/
def markerColour (p : truetype.Point) : Option color.RGBA :=
  if p.Flags &&& 0x01 = 0 then some ⟨0, 255, 255, 255⟩
  else if p.Flags &&& 0x01 = 1 then some ⟨255, 0, 0, 255⟩
  else none

/-- The pixel `x, y := int(mrp.X)/256, int(mrp.Y)/256` of a glyph point. -/
def nodePixel (p : truetype.Point) : Int × Int :=
  let mrp := rp p
  (mrp.X.tdiv 256, mrp.Y.tdiv 256)

/-- One iteration of the loop of `showNodes` (main.go 94-110). -/
def showNode (m : image.RGBA) (p : truetype.Point) : image.RGBA :=
  let x := (nodePixel p).1
  let y := (nodePixel p).2
  if !((image.Point.mk x y).In m.Bounds) then m
  else
    match markerColour p with
    | some c => m.Set x y c
    | none => m

/-- Function `showNodes` (main.go 93-111). -/
def showNodes (m : image.RGBA) (g : truetype.GlyphBuf) : image.RGBA :=
  g.Point.foldl showNode m

/-! ## Derived descriptions used in the statements -/

/-- The midpoint computed in the off-curve after off-curve branch of
`drawContour` (main.go 67-70), in `Fix32` arithmetic. -/
def midPoint (q0 q : raster.Point) : raster.Point :=
  { X := (wrap32 (q0.X + q.X)).tdiv 2
    Y := (wrap32 (q0.Y + q.Y)).tdiv 2 }

/-- The calls one loop iteration of `drawContour` makes, from `q0`, `on0`, `p`. -/
def stepEmit (q0 : raster.Point) (on0 : Bool) (p : truetype.Point) : List raster.Prim :=
  if onCurve p then
    if on0 then [raster.Prim.Add1 (rp p)] else [raster.Prim.Add2 q0 (rp p)]
  else
    if on0 then [] else [raster.Prim.Add2 q0 (midPoint q0 (rp p))]

/-- The calls the loop of `drawContour` and the closing statement make when the
loop starts in `q0`, `on0` with the points `ps` left to process. -/
def traceFrom (start q0 : raster.Point) (on0 : Bool) : List truetype.Point → List raster.Prim
  | [] => if on0 then [raster.Prim.Add1 start] else [raster.Prim.Add2 q0 start]
  | p :: ps => stepEmit q0 on0 p ++ traceFrom start (rp p) (onCurve p) ps

/-- The control point of a quadratic-curve-to, `none` for the other calls. -/
def raster.Prim.control? : raster.Prim → Option raster.Point
  | raster.Prim.Add2 b _ => some b
  | _ => none

/-- The call is a quadratic-curve-to. -/
def raster.Prim.isAdd2 : raster.Prim → Bool
  | raster.Prim.Add2 _ _ => true
  | _ => false

/-- The call is a line-to. -/
def raster.Prim.isAdd1 : raster.Prim → Bool
  | raster.Prim.Add1 _ => true
  | _ => false

/-- The drawing calls of a contour whose points after the start point `start`
are the off-curve points of the list: one quadratic-curve-to per point, ending at
the midpoint towards the following point and, for the last one, at `start`; a
single line-to at `start` when there is no point after the start point. -/
def allOffTrace (start : raster.Point) : List truetype.Point → List raster.Prim
  | [] => [raster.Prim.Add1 start]
  | [a] => [raster.Prim.Add2 (rp a) start]
  | a :: b :: t =>
    raster.Prim.Add2 (rp a) (midPoint (rp a) (rp b)) :: allOffTrace start (b :: t)

/-- The point `p` with only the on-curve bit of its flags flipped. -/
def flipOnCurve (p : truetype.Point) : truetype.Point :=
  { p with Flags := p.Flags ^^^ 0x01 }

/-- No `int32` operation of `rp p` overflows: the sums `20 + p.X/4`,
`380 - p.Y/4` and their products by 256 are representable. -/
def rpNoOverflow (p : truetype.Point) : Prop :=
  InInt32 (20 + p.X.tdiv 4) ∧ InInt32 ((20 + p.X.tdiv 4) * 256) ∧
  InInt32 (380 - p.Y.tdiv 4) ∧ InInt32 ((380 - p.Y.tdiv 4) * 256)

instance (p : truetype.Point) : Decidable (rpNoOverflow p) := by
  unfold rpNoOverflow; infer_instance

/-- The `End` offsets with the entries of the empty contours removed: an
entry is dropped when it equals the previous offset `prev` (`0` before the first
entry, so a leading `0` is dropped). -/
def removeEmptyEnds (prev : Int) : List Int → List Int
  | [] => []
  | e :: es => if e = prev then removeEmptyEnds prev es else e :: removeEmptyEnds e es

/-- The offsets `es`, read after the previous offset `prev`, never decrease and
never exceed `n`. -/
def endsValid (n : Int) (prev : Int) : List Int → Bool
  | [] => true
  | e :: es => decide (prev ≤ e) && decide (e ≤ n) && endsValid n e es

/-- The offsets are non-decreasing from one entry to the next. -/
def nonDecreasing : List Int → Bool
  | a :: b :: t => decide (a ≤ b) && nonDecreasing (b :: t)
  | _ => true

/-- The contours the offsets `es` cut out of the points `pts`, in order: the
contour of an entry `e` holds the points from the previous offset `prev` up to
`e` (not included). -/
def contours (pts : List truetype.Point) (prev : Int) : List Int → List (List truetype.Point)
  | [] => []
  | e :: es => ((pts.drop prev.toNat).take (e.toNat - prev.toNat)) :: contours pts e es

/-- The marker colour of an on-curve point. -/
def red : color.RGBA := ⟨255, 0, 0, 255⟩

/-- The marker colour of an off-curve point. -/
def cyan : color.RGBA := ⟨0, 255, 255, 255⟩

/-- The canvas of `main` before `showNodes`, taken without the glyph: bounds
`image.Rect(0, 0, 400, 400)` and every pixel white. -/
def whiteCanvas : image.RGBA :=
  { Rect := ⟨⟨0, 0⟩, ⟨400, 400⟩⟩
    pix := fun _ _ => ⟨255, 255, 255, 255⟩ }

/-- The last point of `pts` whose pixel, as computed by `showNodes`, is `(x, y)`. -/
def lastNodeAt (pts : List truetype.Point) (x y : Int) : Option truetype.Point :=
  (pts.filter (fun p => decide (nodePixel p = (x, y)))).getLast?

/-- The last point `p` of `pts` with `(20 + p.X/4, 380 - p.Y/4) = (x, y)`, the
division truncating. -/
def lastPointAt (pts : List truetype.Point) (x y : Int) : Option truetype.Point :=
  (pts.filter (fun p => decide (20 + p.X.tdiv 4 = x ∧ 380 - p.Y.tdiv 4 = y))).getLast?

/-- The colour the overlay leaves at pixel `(x, y)` of the canvas `m` when `hit`
is the last glyph point mapped to that pixel: the marker colour of `hit` if the
pixel is inside the bounds of `m`, the colour `m` had in every other case. -/
def overlayColour (m : image.RGBA) (x y : Int) (hit : Option truetype.Point) : color.RGBA :=
  match hit with
  | some p =>
    if (image.Point.mk x y).In m.Rect then (if onCurve p then red else cyan)
    else m.pix x y
  | none => m.pix x y

/-! ## Machine arithmetic -/

theorem wrap32_of_inInt32 {v : Int} (h : InInt32 v) : wrap32 v = v := by
  unfold InInt32 at h
  unfold wrap32
  omega

theorem tdiv_eq_ite (a d : Int) (hd : 0 ≤ d) :
    a.tdiv d = if 0 ≤ a then a / d else -((-a) / d) := by
  split
  · next h => exact Int.tdiv_eq_ediv h hd
  · next h =>
    have h1 : (-a).tdiv d = (-a) / d := Int.tdiv_eq_ediv (by omega) hd
    have h2 : (-a).tdiv d = -(a.tdiv d) := Int.neg_tdiv a d
    omega

theorem rp_of_noOverflow {p : truetype.Point} (h : rpNoOverflow p) :
    rp p = { X := 256 * (20 + p.X.tdiv 4), Y := 256 * (380 - p.Y.tdiv 4) } := by
  obtain ⟨h1, h2, h3, h4⟩ := h
  unfold rp
  simp only [wrap32_of_inInt32 h1, wrap32_of_inInt32 h2, wrap32_of_inInt32 h3,
    wrap32_of_inInt32 h4]
  congr 1 <;> ring

theorem rp_X_even (p : truetype.Point) : (2 : Int) ∣ (rp p).X := by
  simp only [rp, wrap32]
  omega

theorem rp_Y_even (p : truetype.Point) : (2 : Int) ∣ (rp p).Y := by
  simp only [rp, wrap32]
  omega

theorem two_mul_tdiv_two {a : Int} (h : (2 : Int) ∣ a) : 2 * a.tdiv 2 = a := by
  have h1 := Int.tmod_add_tdiv a 2
  have h2 := Int.tmod_eq_zero_of_dvd h
  omega

theorem rpNoOverflow_of_bound {p : truetype.Point}
    (hX : -32767 ≤ p.X ∧ p.X ≤ 32767) (hY : -32767 ≤ p.Y ∧ p.Y ≤ 32767) :
    rpNoOverflow p := by
  unfold rpNoOverflow InInt32
  rw [tdiv_eq_ite p.X 4 (by decide), tdiv_eq_ite p.Y 4 (by decide)]
  split <;> split <;> omega

/-- In the 16-bit coordinate range the sums formed by the midpoint computation
of `drawContour` are representable in 32 bits. -/
theorem rp_sum_inInt32_of_bound {p q : truetype.Point}
    (hpX : -32767 ≤ p.X ∧ p.X ≤ 32767) (hpY : -32767 ≤ p.Y ∧ p.Y ≤ 32767)
    (hqX : -32767 ≤ q.X ∧ q.X ≤ 32767) (hqY : -32767 ≤ q.Y ∧ q.Y ≤ 32767) :
    InInt32 ((rp p).X + (rp q).X) ∧ InInt32 ((rp p).Y + (rp q).Y) := by
  rw [rp_of_noOverflow (rpNoOverflow_of_bound hpX hpY),
    rp_of_noOverflow (rpNoOverflow_of_bound hqX hqY)]
  simp only [InInt32]
  rw [tdiv_eq_ite p.X 4 (by decide), tdiv_eq_ite p.Y 4 (by decide),
    tdiv_eq_ite q.X 4 (by decide), tdiv_eq_ite q.Y 4 (by decide)]
  constructor <;> split <;> split <;> omega

/-! ## The loop of `drawContour` -/

theorem loopBody_eq (s : LoopState) (p : truetype.Point) :
    loopBody s p = { r := ⟨s.r.path ++ stepEmit s.q0 s.on0 p⟩, q0 := rp p, on0 := onCurve p } := by
  unfold loopBody stepEmit midPoint
  cases hp : onCurve p <;> cases hs : s.on0 <;>
    simp [raster.Rasterizer.Add1, raster.Rasterizer.Add2]

theorem drawLoop_append (s : LoopState) (xs ys : List truetype.Point) :
    drawLoop s (xs ++ ys) = drawLoop (drawLoop s xs) ys := by
  induction xs generalizing s with
  | nil => rfl
  | cons x xs ih => simp [drawLoop, ih]

theorem closeContour_drawLoop (start : raster.Point) (s : LoopState)
    (ps : List truetype.Point) :
    (closeContour start (drawLoop s ps)).path = s.r.path ++ traceFrom start s.q0 s.on0 ps := by
  induction ps generalizing s with
  | nil =>
    cases hs : s.on0 <;>
      simp [drawLoop, closeContour, traceFrom, hs, raster.Rasterizer.Add1,
        raster.Rasterizer.Add2]
  | cons p ps ih =>
    rw [drawLoop, ih, loopBody_eq]
    simp [traceFrom]

theorem drawContour_path (r : raster.Rasterizer) (p0 : truetype.Point)
    (rest : List truetype.Point) :
    (drawContour r (p0 :: rest)).path
      = r.path ++ raster.Prim.Start (rp p0) :: traceFrom (rp p0) (rp p0) true rest := by
  simp [drawContour, closeContour_drawLoop, raster.Rasterizer.Start]

theorem traceFrom_all_on (start q0 : raster.Point) (ps : List truetype.Point)
    (h : ∀ p ∈ ps, onCurve p = true) :
    traceFrom start q0 true ps
      = ps.map (fun p => raster.Prim.Add1 (rp p)) ++ [raster.Prim.Add1 start] := by
  induction ps generalizing q0 with
  | nil => simp [traceFrom]
  | cons p ps ih =>
    have hp : onCurve p = true := h p (by simp)
    have hps : ∀ q ∈ ps, onCurve q = true := fun q hq => h q (by simp [hq])
    simp [traceFrom, stepEmit, hp, ih (rp p) hps]

theorem traceFrom_last (start q0 : raster.Point) (on0 : Bool) (ps : List truetype.Point) :
    ∃ body, traceFrom start q0 on0 ps = body ++
      [match ps.getLast? with
        | none => if on0 then raster.Prim.Add1 start else raster.Prim.Add2 q0 start
        | some p => if onCurve p then raster.Prim.Add1 start
                    else raster.Prim.Add2 (rp p) start] := by
  induction ps generalizing q0 on0 with
  | nil => exact ⟨[], by cases on0 <;> simp [traceFrom]⟩
  | cons p ps ih =>
    obtain ⟨body, hb⟩ := ih (rp p) (onCurve p)
    refine ⟨stepEmit q0 on0 p ++ body, ?_⟩
    rw [traceFrom, hb]
    cases ps with
    | nil => simp
    | cons q qs =>
      have hl : (q :: qs).getLast? = some ((q :: qs).getLast (by simp)) :=
        List.getLast?_eq_getLast _ _
      simp only [List.getLast?_cons_cons] at hl ⊢
      simp [hl]

theorem traceFrom_controls (start q0 : raster.Point) (on0 : Bool)
    (ps : List truetype.Point) :
    (traceFrom start q0 on0 ps).filterMap raster.Prim.control?
      = (if on0 then [] else [q0]) ++ (ps.filter (fun p => !onCurve p)).map rp := by
  induction ps generalizing q0 on0 with
  | nil => cases on0 <;> simp [traceFrom, raster.Prim.control?]
  | cons p ps ih =>
    rw [traceFrom, List.filterMap_append, ih]
    cases on0 <;> cases hp : onCurve p <;>
      simp [stepEmit, hp, raster.Prim.control?]

theorem traceFrom_all_off (start : raster.Point) (a : truetype.Point)
    (t : List truetype.Point) (h : ∀ p ∈ t, onCurve p = false) :
    traceFrom start (rp a) false t = allOffTrace start (a :: t) := by
  induction t generalizing a with
  | nil => simp [traceFrom, allOffTrace]
  | cons b t ih =>
    have hb : onCurve b = false := h b (by simp)
    have ht : ∀ q ∈ t, onCurve q = false := fun q hq => h q (by simp [hq])
    simp [traceFrom, stepEmit, hb, allOffTrace, ih b ht]

theorem allOffTrace_length (start : raster.Point) (ps : List truetype.Point) :
    (allOffTrace start ps).length = max 1 ps.length := by
  induction ps with
  | nil => simp [allOffTrace]
  | cons a t ih =>
    cases t with
    | nil => simp [allOffTrace]
    | cons b t =>
      simp only [allOffTrace, List.length_cons] at ih ⊢
      omega

theorem onCurve_flipOnCurve (p : truetype.Point) :
    onCurve (flipOnCurve p) = !onCurve p := by
  have h1 : (p.Flags ^^^ 1) % 2 = (p.Flags + 1) % 2 := Nat.xor_mod_two_eq
  have h2 : p.Flags % 2 = 0 ∨ p.Flags % 2 = 1 := by omega
  rcases h2 with h2 | h2
  · have h3 : (p.Flags ^^^ 1) % 2 = 1 := by omega
    simp [onCurve, flipOnCurve, Nat.and_one_is_mod, h2, h3]
  · have h3 : (p.Flags ^^^ 1) % 2 = 0 := by omega
    simp [onCurve, flipOnCurve, Nat.and_one_is_mod, h2, h3]

/-! ## The coordinate mapper: claims -/

/-- C5, refuted as stated: at the glyph point `(1, 1)`, where nothing overflows,
`rp` gives `(5120, 97280)` and not `(256*20 + 64*1, 256*380 - 64*1)`. -/
theorem rp_not_affine :
    rpNoOverflow ⟨1, 1, 1⟩ ∧ rp ⟨1, 1, 1⟩ = ⟨5120, 97280⟩ ∧
    (rp ⟨1, 1, 1⟩).X ≠ 256 * 20 + 64 * 1 ∧ (rp ⟨1, 1, 1⟩).Y ≠ 256 * 380 - 64 * 1 := by
  decide

/-- C5, amended: where no 32-bit overflow occurs, `rp p` is
`(256 * (20 + p.X/4), 256 * (380 - p.Y/4))` with the division by 4 truncating
toward zero; a coordinate of `rp p` equals the affine value `256*20 + 64*p.X`,
respectively `256*380 - 64*p.Y`, exactly when the glyph coordinate is a multiple
of 4. -/
theorem rp_fixed_map (p : truetype.Point) (h : rpNoOverflow p) :
    rp p = { X := 256 * (20 + p.X.tdiv 4), Y := 256 * (380 - p.Y.tdiv 4) } ∧
    ((rp p).X = 256 * 20 + 64 * p.X ↔ (4 : Int) ∣ p.X) ∧
    ((rp p).Y = 256 * 380 - 64 * p.Y ↔ (4 : Int) ∣ p.Y) := by
  have hrp := rp_of_noOverflow h
  refine ⟨hrp, ?_, ?_⟩
  · rw [hrp]
    have h1 := Int.tmod_add_tdiv p.X 4
    constructor
    · intro h2
      apply Int.dvd_of_tmod_eq_zero
      simp only at h2
      omega
    · intro h2
      have h3 := Int.tmod_eq_zero_of_dvd h2
      simp only
      omega
  · rw [hrp]
    have h1 := Int.tmod_add_tdiv p.Y 4
    constructor
    · intro h2
      apply Int.dvd_of_tmod_eq_zero
      simp only at h2
      omega
    · intro h2
      have h3 := Int.tmod_eq_zero_of_dvd h2
      simp only
      omega

/-- Witness of the amended C5 at the glyph point `(-1001, 1234)`. -/
theorem rp_fixed_map_witness :
    rpNoOverflow ⟨-1001, 1234, 0⟩ ∧
    (rp ⟨-1001, 1234, 0⟩
        = { X := 256 * (20 + (-1001 : Int).tdiv 4), Y := 256 * (380 - (1234 : Int).tdiv 4) } ∧
      ((rp ⟨-1001, 1234, 0⟩).X = 256 * 20 + 64 * (-1001) ↔ (4 : Int) ∣ (-1001)) ∧
      ((rp ⟨-1001, 1234, 0⟩).Y = 256 * 380 - 64 * 1234 ↔ (4 : Int) ∣ 1234)) :=
  ⟨by decide, rp_fixed_map ⟨-1001, 1234, 0⟩ (by decide)⟩

/-! ## The contour tracer: claims -/

/-- C1: for a contour `p0 :: rest` whose points are all on-curve, `drawContour`
adds to the path exactly a move-to at `rp p0`, then a line-to at `rp p` for every
further point `p` in order, then one closing line-to at `rp p0`; there is no
quadratic-curve-to. -/
theorem drawContour_all_on_curve (r : raster.Rasterizer) (p0 : truetype.Point)
    (rest : List truetype.Point) (hon : ∀ p ∈ p0 :: rest, onCurve p = true) :
    (drawContour r (p0 :: rest)).path
      = r.path ++ raster.Prim.Start (rp p0) ::
          (rest.map (fun p => raster.Prim.Add1 (rp p)) ++ [raster.Prim.Add1 (rp p0)]) := by
  rw [drawContour_path, traceFrom_all_on]
  intro p hp
  exact hon p (by simp [hp])

/-- Witness of C1 on a triangle of three on-curve points. -/
theorem drawContour_all_on_curve_witness :
    (∀ p ∈ [(⟨0, 0, 1⟩ : truetype.Point), ⟨400, 0, 1⟩, ⟨0, 400, 1⟩], onCurve p = true) ∧
    (drawContour ⟨[]⟩ [⟨0, 0, 1⟩, ⟨400, 0, 1⟩, ⟨0, 400, 1⟩]).path
      = [] ++ raster.Prim.Start (rp ⟨0, 0, 1⟩) ::
          ([(⟨400, 0, 1⟩ : truetype.Point), ⟨0, 400, 1⟩].map (fun p => raster.Prim.Add1 (rp p))
            ++ [raster.Prim.Add1 (rp ⟨0, 0, 1⟩)]) :=
  ⟨by decide, drawContour_all_on_curve ⟨[]⟩ ⟨0, 0, 1⟩ [⟨400, 0, 1⟩, ⟨0, 400, 1⟩] (by decide)⟩

/-- C4: for a non-empty contour `p0 :: rest` the calls `drawContour` adds start
with the move-to at `rp p0` and end with a call that returns to `rp p0`: a line-to
when the contour has one point or its last point is on-curve, and otherwise a
quadratic-curve-to whose control is the mapped last point. -/
theorem drawContour_closes (r : raster.Rasterizer) (p0 : truetype.Point)
    (rest : List truetype.Point) :
    ∃ body, (drawContour r (p0 :: rest)).path
      = r.path ++ raster.Prim.Start (rp p0) :: (body ++
          [if rest = [] ∨ onCurve ((p0 :: rest).getLast (by simp)) = true
            then raster.Prim.Add1 (rp p0)
            else raster.Prim.Add2 (rp ((p0 :: rest).getLast (by simp))) (rp p0)]) := by
  obtain ⟨body, hb⟩ := traceFrom_last (rp p0) (rp p0) true rest
  refine ⟨body, ?_⟩
  rw [drawContour_path, hb]
  cases rest with
  | nil => simp
  | cons q qs =>
    have hl : (q :: qs).getLast? = some ((q :: qs).getLast (by simp)) :=
      List.getLast?_eq_getLast _ _
    simp only [List.getLast?_cons_cons] at hl ⊢
    simp [hl]

/-- C6: the first point of a contour is treated as on-curve whatever its flag:
the calls added by `drawContour` start with the move-to at `rp p0`, and flipping
only the on-curve bit of the first point, which does change what `onCurve` reads
from it, leaves the result of `drawContour` unchanged. -/
theorem drawContour_first_flag_irrelevant (r : raster.Rasterizer) (p0 : truetype.Point)
    (rest : List truetype.Point) :
    (∃ body, (drawContour r (p0 :: rest)).path
        = r.path ++ raster.Prim.Start (rp p0) :: body) ∧
    onCurve (flipOnCurve p0) = (!onCurve p0) ∧
    drawContour r (flipOnCurve p0 :: rest) = drawContour r (p0 :: rest) := by
  refine ⟨⟨_, drawContour_path r p0 rest⟩, onCurve_flipOnCurve p0, ?_⟩
  simp [drawContour, flipOnCurve, rp]

/-- C7, refuted as stated: the contour of the two off-curve points `(0, 0)` and
`(400, 400)` is not rejected, and `drawContour` adds a quadratic-curve-to for it. -/
theorem drawContour_all_off_draws :
    (∀ p ∈ [(⟨0, 0, 0⟩ : truetype.Point), ⟨400, 400, 0⟩], onCurve p = false) ∧
    (drawContour ⟨[]⟩ [⟨0, 0, 0⟩, ⟨400, 400, 0⟩]).path
      = [raster.Prim.Start ⟨5120, 97280⟩,
         raster.Prim.Add2 ⟨30720, 71680⟩ ⟨5120, 97280⟩] := by
  decide

/-- C7, amended: a non-empty contour `p0 :: rest` of off-curve points only is
not rejected but traced with its first point taken as on-curve: after the move-to
at `rp p0` come the calls of `allOffTrace`, a single closing line-to for a
one-point contour and otherwise one quadratic-curve-to per point of `rest`, whose
controls are the mapped points of `rest` in order and the last of which ends at
`rp p0`; so at least one drawing call is added.  The endpoints of the other
quadratic-curve-tos are the `midPoint` of the code, computed in 32-bit arithmetic;
it is the exact mean of the two mapped points when their coordinate sums are
representable in 32 bits. -/
theorem drawContour_all_off_curve (r : raster.Rasterizer) (p0 : truetype.Point)
    (rest : List truetype.Point) (hoff : ∀ p ∈ p0 :: rest, onCurve p = false) :
    (drawContour r (p0 :: rest)).path
      = r.path ++ raster.Prim.Start (rp p0) :: allOffTrace (rp p0) rest ∧
    (allOffTrace (rp p0) rest).length = max 1 rest.length ∧
    (rest ≠ [] → ∀ q ∈ allOffTrace (rp p0) rest, q.isAdd2 = true) ∧
    (rest ≠ [] →
      (allOffTrace (rp p0) rest).filterMap raster.Prim.control? = rest.map rp) ∧
    (∀ h : rest ≠ [], (allOffTrace (rp p0) rest).getLast?
      = some (raster.Prim.Add2 (rp (rest.getLast h)) (rp p0))) ∧
    (∀ a b : truetype.Point, InInt32 ((rp a).X + (rp b).X) →
      InInt32 ((rp a).Y + (rp b).Y) →
      2 * (midPoint (rp a) (rp b)).X = (rp a).X + (rp b).X ∧
      2 * (midPoint (rp a) (rp b)).Y = (rp a).Y + (rp b).Y) := by
  have hpath : (drawContour r (p0 :: rest)).path
      = r.path ++ raster.Prim.Start (rp p0) :: allOffTrace (rp p0) rest := by
    rw [drawContour_path]
    cases rest with
    | nil => simp [traceFrom, allOffTrace]
    | cons a t =>
      have ha : onCurve a = false := hoff a (by simp)
      have ht : ∀ q ∈ t, onCurve q = false := fun q hq => hoff q (by simp [hq])
      simp [traceFrom, stepEmit, ha, traceFrom_all_off _ a t ht]
  have htrace : allOffTrace (rp p0) rest = traceFrom (rp p0) (rp p0) true rest := by
    have h1 := drawContour_path r p0 rest
    rw [hpath] at h1
    simpa using h1
  have hrest : ∀ q ∈ rest, onCurve q = false := fun q hq => hoff q (by simp [hq])
  refine ⟨hpath, allOffTrace_length _ _, ?_, ?_, ?_, ?_⟩
  · intro hne
    clear hoff hpath htrace hrest
    generalize rp p0 = start
    induction rest with
    | nil => exact absurd rfl hne
    | cons a t ih =>
      cases t with
      | nil => simp [allOffTrace, raster.Prim.isAdd2]
      | cons b t =>
        intro q hq
        simp only [allOffTrace, List.mem_cons] at hq
        rcases hq with hq | hq
        · simp [hq, raster.Prim.isAdd2]
        · exact ih (by simp) q (by simpa [allOffTrace] using hq)
  · intro _
    rw [htrace, traceFrom_controls]
    have hf : rest.filter (fun p => !onCurve p) = rest := by
      rw [List.filter_eq_self]
      intro q hq
      simp [hrest q hq]
    simp [hf]
  · intro hne
    obtain ⟨body, hb⟩ := traceFrom_last (rp p0) (rp p0) true rest
    have hl : rest.getLast? = some (rest.getLast hne) := List.getLast?_eq_getLast _ _
    rw [htrace, hb, hl]
    have hlast : onCurve (rest.getLast hne) = false := hrest _ (List.getLast_mem hne)
    simp [hlast]
  · intro a b hX hY
    constructor
    · simp only [midPoint, wrap32_of_inInt32 hX]
      exact two_mul_tdiv_two (Int.dvd_add (rp_X_even _) (rp_X_even _))
    · simp only [midPoint, wrap32_of_inInt32 hY]
      exact two_mul_tdiv_two (Int.dvd_add (rp_Y_even _) (rp_Y_even _))

/-- Witness of the amended C7 on three off-curve points. -/
theorem drawContour_all_off_curve_witness :
    (∀ p ∈ [(⟨0, 0, 0⟩ : truetype.Point), ⟨400, 400, 0⟩, ⟨800, 0, 0⟩], onCurve p = false) ∧
    (drawContour ⟨[]⟩ [⟨0, 0, 0⟩, ⟨400, 400, 0⟩, ⟨800, 0, 0⟩]).path
      = [] ++ raster.Prim.Start (rp ⟨0, 0, 0⟩) ::
          allOffTrace (rp ⟨0, 0, 0⟩) [⟨400, 400, 0⟩, ⟨800, 0, 0⟩] ∧
    allOffTrace (rp ⟨0, 0, 0⟩) [⟨400, 400, 0⟩, ⟨800, 0, 0⟩]
      = [raster.Prim.Add2 ⟨30720, 71680⟩ ⟨43520, 84480⟩,
         raster.Prim.Add2 ⟨56320, 97280⟩ ⟨5120, 97280⟩] :=
  ⟨by decide,
    (drawContour_all_off_curve ⟨[]⟩ ⟨0, 0, 0⟩ [⟨400, 400, 0⟩, ⟨800, 0, 0⟩] (by decide)).1,
    by decide⟩

/-- C10: for a non-empty contour `p0 :: rest`, the controls of the
quadratic-curve-to calls added by `drawContour`, in the order of the calls, are
`rp p` for the off-curve points `p` of `rest` in contour order; in particular there
are as many quadratic-curve-to calls as off-curve points after the first point. -/
theorem drawContour_controls (r : raster.Rasterizer) (p0 : truetype.Point)
    (rest : List truetype.Point) :
    ((drawContour r (p0 :: rest)).path.drop r.path.length).filterMap raster.Prim.control?
      = (rest.filter (fun p => !onCurve p)).map rp ∧
    ((drawContour r (p0 :: rest)).path.drop r.path.length).countP raster.Prim.isAdd2
      = rest.countP (fun p => !onCurve p) := by
  have hc := traceFrom_controls (rp p0) (rp p0) true rest
  have hdrop : (drawContour r (p0 :: rest)).path.drop r.path.length
      = raster.Prim.Start (rp p0) :: traceFrom (rp p0) (rp p0) true rest := by
    rw [drawContour_path]; simp
  have hcount : ∀ l : List raster.Prim,
      l.countP raster.Prim.isAdd2 = (l.filterMap raster.Prim.control?).length := by
    intro l
    induction l with
    | nil => rfl
    | cons a l ih =>
      cases a <;> simp [raster.Prim.isAdd2, raster.Prim.control?, List.filterMap_cons, ih]
  have hfm : ((drawContour r (p0 :: rest)).path.drop r.path.length).filterMap
      raster.Prim.control? = (rest.filter (fun p => !onCurve p)).map rp := by
    rw [hdrop, List.filterMap_cons]
    simpa [raster.Prim.control?] using hc
  refine ⟨hfm, ?_⟩
  rw [hcount, hfm, List.length_map, List.countP_eq_length_filter]

/-! ## Positions inside a contour -/

theorem drawLoop_take_succ (s : LoopState) (rest : List truetype.Point) (j : Nat)
    (h : j < rest.length) :
    drawLoop s (rest.take (j + 1)) = loopBody (drawLoop s (rest.take j)) rest[j] := by
  rw [List.take_succ, drawLoop_append]
  simp [List.getElem?_eq_getElem h, drawLoop]

theorem drawLoop_take_drop (s : LoopState) (rest : List truetype.Point) (k : Nat) :
    drawLoop (drawLoop s (rest.take k)) (rest.drop k) = drawLoop s rest := by
  rw [← drawLoop_append, List.take_append_drop]

/-- The value of `on0` when the loop reaches position `j + 1` of `p0 :: rest`. -/
theorem drawLoop_take_on0 (s : LoopState) (rest : List truetype.Point) (j : Nat)
    (h : j < rest.length) :
    (drawLoop s (rest.take (j + 1))).on0 = onCurve rest[j] ∧
    (drawLoop s (rest.take (j + 1))).q0 = rp rest[j] := by
  rw [drawLoop_take_succ s rest j h, loopBody_eq]
  exact ⟨rfl, rfl⟩

/-- C2: when `ps[i]`, `i ≥ 1`, is off-curve between an on-curve `ps[i-1]` and an
on-curve next point (`ps[i+1]`, or `ps[0]` when `i` is the last position), the
loop of `drawContour` reaches `ps[i]` in a state `s`, adds no call while it
processes `ps[i]`, and the next step (the iteration for `ps[i+1]`, or closing the
curve) adds exactly one quadratic-curve-to with control `rp ps[i]` and endpoint
the mapped next point.  The contour `[A, C, B]` with `A`, `B` on-curve and `C`
off-curve gives move-to `rp A`, quadratic-curve-to `(rp C, rp B)`, line-to `rp A`. -/
theorem drawContour_single_off_curve (r : raster.Rasterizer) :
    (∀ (ps : List truetype.Point) (i : Nat) (_hi : 1 ≤ i) (hlt : i < ps.length)
      (_hoff : onCurve ps[i] = false) (_hprev : onCurve ps[i - 1] = true)
      (_hnext : onCurve (ps[i + 1]?.getD ps[0]) = true),
      ∃ s : LoopState,
        stateBefore r ps i = some s ∧
        stateBefore r ps (i + 1) = some (loopBody s ps[i]) ∧
        (loopBody s ps[i]).r = s.r ∧
        drawContour r ps
          = closeContour (rp ps[0]) (drawLoop (loopBody s ps[i]) (ps.drop (i + 1))) ∧
        (∀ h : i + 1 < ps.length,
          (loopBody (loopBody s ps[i]) ps[i + 1]).r.path
            = s.r.path ++ [raster.Prim.Add2 (rp ps[i]) (rp ps[i + 1])]) ∧
        (i + 1 = ps.length →
          (drawContour r ps).path
            = s.r.path ++ [raster.Prim.Add2 (rp ps[i]) (rp ps[0])])) ∧
    (∀ A C B : truetype.Point, onCurve A = true → onCurve C = false → onCurve B = true →
      (drawContour r [A, C, B]).path
        = r.path ++ [raster.Prim.Start (rp A), raster.Prim.Add2 (rp C) (rp B),
            raster.Prim.Add1 (rp A)]) := by
  constructor
  · intro ps i hi hlt hoff hprev hnext
    cases ps with
    | nil => simp at hlt
    | cons p0 rest =>
      obtain ⟨j, rfl⟩ : ∃ j, i = j + 1 := ⟨i - 1, by omega⟩
      have hj : j < rest.length := by simpa using hlt
      simp only [List.getElem_cons_succ, List.getElem_cons_zero, List.drop_succ_cons,
        Nat.add_sub_cancel] at hoff hprev hnext ⊢
      refine ⟨drawLoop { r := r.Start (rp p0), q0 := rp p0, on0 := true } (rest.take j),
        rfl, ?_, ?_, ?_, ?_, ?_⟩
      · simp only [stateBefore, Nat.add_sub_cancel]
        rw [drawLoop_take_succ _ rest j hj]
      · have hon : (drawLoop { r := r.Start (rp p0), q0 := rp p0, on0 := true }
            (rest.take j)).on0 = true := by
          cases j with
          | zero => rfl
          | succ j0 =>
            rw [(drawLoop_take_on0 _ rest j0 (by omega)).1]
            simpa using hprev
        rw [loopBody_eq]
        simp [stepEmit, hoff, hon]
      · rw [← drawLoop_take_succ _ rest j hj, drawLoop_take_drop]
        rfl
      · intro h
        have h1 : j + 1 < rest.length := by simpa using h
        have hn : onCurve rest[j + 1] = true := by
          simpa [List.getElem?_eq_getElem h1] using hnext
        have hon : (drawLoop { r := r.Start (rp p0), q0 := rp p0, on0 := true }
            (rest.take j)).on0 = true := by
          cases j with
          | zero => rfl
          | succ j0 =>
            rw [(drawLoop_take_on0 _ rest j0 (by omega)).1]
            simpa using hprev
        rw [loopBody_eq, loopBody_eq]
        simp [stepEmit, hoff, hon, hn]
      · intro h
        have h1 : rest.length = j + 1 := by simpa using h.symm
        have hon : (drawLoop { r := r.Start (rp p0), q0 := rp p0, on0 := true }
            (rest.take j)).on0 = true := by
          cases j with
          | zero => rfl
          | succ j0 =>
            rw [(drawLoop_take_on0 _ rest j0 (by omega)).1]
            simpa using hprev
        have hall : drawLoop { r := r.Start (rp p0), q0 := rp p0, on0 := true } rest
            = loopBody (drawLoop { r := r.Start (rp p0), q0 := rp p0, on0 := true }
                (rest.take j)) rest[j] := by
          rw [← drawLoop_take_succ _ rest j hj, ← h1, List.take_length]
        simp only [drawContour]
        rw [hall, loopBody_eq]
        simp [closeContour, hoff, stepEmit, hon, raster.Rasterizer.Add2]
  · intro A C B hA hC hB
    simp [drawContour_path, traceFrom, stepEmit, hC, hB]

/-- Witness of C2 on the contour `[A, C, B]` at position 1. -/
theorem drawContour_single_off_curve_witness :
    (1 ≤ 1 ∧ onCurve (⟨400, 400, 0⟩ : truetype.Point) = false) ∧
    ∃ s : LoopState,
      stateBefore ⟨[]⟩ [⟨0, 0, 1⟩, ⟨400, 400, 0⟩, ⟨800, 0, 1⟩] 1 = some s ∧
      stateBefore ⟨[]⟩ [⟨0, 0, 1⟩, ⟨400, 400, 0⟩, ⟨800, 0, 1⟩] (1 + 1)
        = some (loopBody s ⟨400, 400, 0⟩) ∧
      (loopBody s ⟨400, 400, 0⟩).r = s.r ∧
      drawContour ⟨[]⟩ [⟨0, 0, 1⟩, ⟨400, 400, 0⟩, ⟨800, 0, 1⟩]
        = closeContour (rp ⟨0, 0, 1⟩)
            (drawLoop (loopBody s ⟨400, 400, 0⟩) [⟨800, 0, 1⟩]) ∧
      (∀ _h : 1 + 1 < 3,
        (loopBody (loopBody s ⟨400, 400, 0⟩) ⟨800, 0, 1⟩).r.path
          = s.r.path ++ [raster.Prim.Add2 (rp ⟨400, 400, 0⟩) (rp ⟨800, 0, 1⟩)]) ∧
      (1 + 1 = 3 →
        (drawContour ⟨[]⟩ [⟨0, 0, 1⟩, ⟨400, 400, 0⟩, ⟨800, 0, 1⟩]).path
          = s.r.path ++ [raster.Prim.Add2 (rp ⟨400, 400, 0⟩) (rp ⟨0, 0, 1⟩)]) :=
  ⟨⟨by decide, by decide⟩,
    (drawContour_single_off_curve ⟨[]⟩).1 [⟨0, 0, 1⟩, ⟨400, 400, 0⟩, ⟨800, 0, 1⟩] 1
      (by decide) (by decide) (by decide) (by decide) (by decide)⟩

/-- C3, refuted as stated: the off-curve point `P = (16777136, 0)` is mapped by
`rp` without overflow to `(2^30, 97280)`, yet for the contour `[A, P, P]` the
quadratic-curve-to added while processing the second `P` ends at
`(-2^30, 97280)`, which is not the mean of `rp P` and `rp P`: the sum of the two
mapped coordinates overflows 32 bits before the halving. -/
theorem midpoint_overflow :
    rpNoOverflow ⟨16777136, 0, 0⟩ ∧
    onCurve (⟨16777136, 0, 0⟩ : truetype.Point) = false ∧
    rp ⟨16777136, 0, 0⟩ = ⟨1073741824, 97280⟩ ∧
    (drawContour ⟨[]⟩ [⟨0, 0, 1⟩, ⟨16777136, 0, 0⟩, ⟨16777136, 0, 0⟩]).path
      = [raster.Prim.Start ⟨5120, 97280⟩,
         raster.Prim.Add2 ⟨1073741824, 97280⟩ ⟨-1073741824, 97280⟩,
         raster.Prim.Add2 ⟨1073741824, 97280⟩ ⟨5120, 97280⟩] ∧
    2 * (-1073741824 : Int) ≠ 1073741824 + 1073741824 := by
  decide

/-- C3, amended: when `ps[i]` and `ps[i+1]`, `i ≥ 1`, are both off-curve and the
sums of their mapped coordinates are representable in 32 bits, the loop of
`drawContour` reaches `ps[i+1]` in a state `s` and adds, while processing
`ps[i+1]`, exactly one quadratic-curve-to with control `rp ps[i]` and an endpoint
`m` that is the exact mean of `rp ps[i]` and `rp ps[i+1]`; afterwards `ps[i+1]` is
the held control. -/
theorem drawContour_off_off_midpoint (r : raster.Rasterizer) (ps : List truetype.Point)
    (i : Nat) (hi : 1 ≤ i) (hlt : i + 1 < ps.length)
    (hoff0 : onCurve ps[i] = false) (hoff1 : onCurve ps[i + 1] = false)
    (hX : InInt32 ((rp ps[i]).X + (rp ps[i + 1]).X))
    (hY : InInt32 ((rp ps[i]).Y + (rp ps[i + 1]).Y)) :
    ∃ (s : LoopState) (m : raster.Point),
      stateBefore r ps (i + 1) = some s ∧
      stateBefore r ps (i + 2) = some (loopBody s ps[i + 1]) ∧
      drawContour r ps
        = closeContour (rp ps[0]) (drawLoop (loopBody s ps[i + 1]) (ps.drop (i + 2))) ∧
      (loopBody s ps[i + 1]).r.path = s.r.path ++ [raster.Prim.Add2 (rp ps[i]) m] ∧
      2 * m.X = (rp ps[i]).X + (rp ps[i + 1]).X ∧
      2 * m.Y = (rp ps[i]).Y + (rp ps[i + 1]).Y ∧
      (loopBody s ps[i + 1]).q0 = rp ps[i + 1] ∧
      (loopBody s ps[i + 1]).on0 = false := by
  cases ps with
  | nil => simp at hlt
  | cons p0 rest =>
    obtain ⟨j, rfl⟩ : ∃ j, i = j + 1 := ⟨i - 1, by omega⟩
    have hj : j + 1 < rest.length := by simpa using hlt
    simp only [List.getElem_cons_succ, List.getElem_cons_zero, List.drop_succ_cons]
      at hoff0 hoff1 hX hY ⊢
    have hst := drawLoop_take_on0 { r := r.Start (rp p0), q0 := rp p0, on0 := true }
      rest j (by omega)
    refine ⟨drawLoop { r := r.Start (rp p0), q0 := rp p0, on0 := true } (rest.take (j + 1)),
      midPoint (rp rest[j]) (rp rest[j + 1]), rfl, ?_, ?_, ?_, ?_, ?_, ?_, ?_⟩
    · have h2 : j + 1 + 2 - 1 = j + 1 + 1 := by omega
      simp only [stateBefore, h2]
      rw [drawLoop_take_succ _ rest (j + 1) hj]
    · rw [← drawLoop_take_succ _ rest (j + 1) hj, drawLoop_take_drop]
      rfl
    · rw [loopBody_eq]
      simp [stepEmit, hoff1, hst.1, hst.2, hoff0]
    · simp only [midPoint, wrap32_of_inInt32 hX]
      exact two_mul_tdiv_two (Int.dvd_add (rp_X_even _) (rp_X_even _))
    · simp only [midPoint, wrap32_of_inInt32 hY]
      exact two_mul_tdiv_two (Int.dvd_add (rp_Y_even _) (rp_Y_even _))
    · rw [loopBody_eq]
    · rw [loopBody_eq]
      exact hoff1

/-- Witness of the amended C3 at the largest coordinates of the 16-bit range. -/
theorem drawContour_off_off_midpoint_witness :
    (1 ≤ 1 ∧ 1 + 1 < 3 ∧ onCurve (⟨32767, -32767, 0⟩ : truetype.Point) = false ∧
      onCurve (⟨32766, -32766, 0⟩ : truetype.Point) = false ∧
      InInt32 ((rp ⟨32767, -32767, 0⟩).X + (rp ⟨32766, -32766, 0⟩).X) ∧
      InInt32 ((rp ⟨32767, -32767, 0⟩).Y + (rp ⟨32766, -32766, 0⟩).Y)) ∧
    ∃ (s : LoopState) (m : raster.Point),
      stateBefore ⟨[]⟩ [⟨0, 0, 1⟩, ⟨32767, -32767, 0⟩, ⟨32766, -32766, 0⟩] (1 + 1) = some s ∧
      stateBefore ⟨[]⟩ [⟨0, 0, 1⟩, ⟨32767, -32767, 0⟩, ⟨32766, -32766, 0⟩] (1 + 2)
        = some (loopBody s ⟨32766, -32766, 0⟩) ∧
      drawContour ⟨[]⟩ [⟨0, 0, 1⟩, ⟨32767, -32767, 0⟩, ⟨32766, -32766, 0⟩]
        = closeContour (rp ⟨0, 0, 1⟩) (drawLoop (loopBody s ⟨32766, -32766, 0⟩) []) ∧
      (loopBody s ⟨32766, -32766, 0⟩).r.path
        = s.r.path ++ [raster.Prim.Add2 (rp ⟨32767, -32767, 0⟩) m] ∧
      2 * m.X = (rp ⟨32767, -32767, 0⟩).X + (rp ⟨32766, -32766, 0⟩).X ∧
      2 * m.Y = (rp ⟨32767, -32767, 0⟩).Y + (rp ⟨32766, -32766, 0⟩).Y ∧
      (loopBody s ⟨32766, -32766, 0⟩).q0 = rp ⟨32766, -32766, 0⟩ ∧
      (loopBody s ⟨32766, -32766, 0⟩).on0 = false :=
  ⟨by decide,
    drawContour_off_off_midpoint ⟨[]⟩ [⟨0, 0, 1⟩, ⟨32767, -32767, 0⟩, ⟨32766, -32766, 0⟩] 1
      (by decide) (by decide) (by decide) (by decide) (by decide) (by decide)⟩

/-! ## `addGlyph`: claims -/

theorem sliceExpr_ok {α : Type} (s spare : List α) (lo hi : Int) (h0 : 0 ≤ lo)
    (h1 : lo ≤ hi) (h2 : hi ≤ (s.length : Int)) :
    ∃ ps, sliceExpr s spare lo hi = some ps ∧ (lo = hi → ps = []) := by
  unfold sliceExpr
  have hc : 0 ≤ lo ∧ lo ≤ hi ∧ hi ≤ ((s.length + spare.length : Nat) : Int) := by
    refine ⟨h0, h1, ?_⟩
    push_cast
    omega
  rw [if_pos hc]
  refine ⟨_, rfl, ?_⟩
  intro h
  subst h
  simp

theorem addGlyphLoop_congr (g g1 : truetype.GlyphBuf) (hP : g1.Point = g.Point)
    (hS : g1.PointSpare = g.PointSpare) (r : raster.Rasterizer) (e0 : Int) (es : List Int) :
    addGlyphLoop g1 r e0 es = addGlyphLoop g r e0 es := by
  induction es generalizing r e0 with
  | nil => rfl
  | cons e1 es ih => simp only [addGlyphLoop, hP, hS, ih]

theorem addGlyphLoop_removeEmptyEnds (g : truetype.GlyphBuf) (r : raster.Rasterizer)
    (e0 : Int) (es : List Int) (h0 : 0 ≤ e0)
    (hvalid : endsValid g.Point.length e0 es = true) :
    ∃ r1, addGlyphLoop g r e0 es = some r1 ∧
      addGlyphLoop g r e0 (removeEmptyEnds e0 es) = some r1 := by
  induction es generalizing r e0 with
  | nil => exact ⟨r, rfl, rfl⟩
  | cons e1 es ih =>
    simp only [endsValid, Bool.and_eq_true, decide_eq_true_eq] at hvalid
    obtain ⟨⟨h01, h1n⟩, hes⟩ := hvalid
    obtain ⟨ps, hps, hempty⟩ := sliceExpr_ok g.Point g.PointSpare e0 e1 h0 h01 h1n
    by_cases heq : e1 = e0
    · have hnil : ps = [] := hempty heq.symm
      subst hnil
      obtain ⟨r1, hr1, hr2⟩ := ih r e1 (by omega) hes
      refine ⟨r1, ?_, ?_⟩
      · simp only [addGlyphLoop, hps, drawContour]
        exact hr1
      · simp only [removeEmptyEnds, if_pos heq]
        rw [← heq]
        exact hr2
    · obtain ⟨r1, hr1, hr2⟩ := ih (drawContour r ps) e1 (by omega) hes
      refine ⟨r1, ?_, ?_⟩
      · simp only [addGlyphLoop, hps]
        exact hr1
      · simp only [removeEmptyEnds, if_neg heq, addGlyphLoop, hps]
        exact hr2

theorem sliceExpr_eq (s spare : List truetype.Point) (lo hi : Int) (h0 : 0 ≤ lo)
    (h1 : lo ≤ hi) (h2 : hi ≤ (s.length : Int)) :
    sliceExpr s spare lo hi = some ((s.drop lo.toNat).take (hi.toNat - lo.toNat)) := by
  unfold sliceExpr
  have hc : 0 ≤ lo ∧ lo ≤ hi ∧ hi ≤ ((s.length + spare.length : Nat) : Int) := by
    refine ⟨h0, h1, ?_⟩
    push_cast
    omega
  rw [if_pos hc]
  have hlo : lo.toNat ≤ s.length := by omega
  rw [List.drop_append_of_le_length hlo, List.take_append_of_le_length]
  rw [List.length_drop]
  omega

theorem addGlyphLoop_contours (g : truetype.GlyphBuf) (r : raster.Rasterizer)
    (e0 : Int) (es : List Int) (h0 : 0 ≤ e0)
    (hvalid : endsValid g.Point.length e0 es = true) :
    addGlyphLoop g r e0 es = some ((contours g.Point e0 es).foldl drawContour r) := by
  induction es generalizing r e0 with
  | nil => rfl
  | cons e1 es ih =>
    simp only [endsValid, Bool.and_eq_true, decide_eq_true_eq] at hvalid
    obtain ⟨⟨h01, h1n⟩, hes⟩ := hvalid
    simp only [addGlyphLoop, sliceExpr_eq g.Point g.PointSpare e0 e1 h0 h01 h1n, contours,
      List.foldl_cons]
    exact ih _ e1 (by omega) hes

theorem contours_removeEmptyEnds (pts : List truetype.Point) (e0 : Int) (es : List Int)
    (h0 : 0 ≤ e0) (h0n : e0 ≤ (pts.length : Int))
    (hvalid : endsValid pts.length e0 es = true) :
    contours pts e0 (removeEmptyEnds e0 es)
      = (contours pts e0 es).filter (fun c => !c.isEmpty) := by
  induction es generalizing e0 with
  | nil => rfl
  | cons e1 es ih =>
    simp only [endsValid, Bool.and_eq_true, decide_eq_true_eq] at hvalid
    obtain ⟨⟨h01, h1n⟩, hes⟩ := hvalid
    by_cases heq : e1 = e0
    · subst heq
      simp only [removeEmptyEnds, if_true, contours, Nat.sub_self, List.take_zero,
        List.filter_cons, List.isEmpty_nil, Bool.not_true, Bool.false_eq_true, if_false]
      exact ih e1 h0 h0n hes
    · have hlen : ((pts.drop e0.toNat).take (e1.toNat - e0.toNat)).length ≠ 0 := by
        rw [List.length_take, List.length_drop]
        omega
      have hne : ((pts.drop e0.toNat).take (e1.toNat - e0.toNat)).isEmpty = false := by
        cases hc : (pts.drop e0.toNat).take (e1.toNat - e0.toNat) with
        | nil => rw [hc] at hlen; exact absurd rfl hlen
        | cons a t => rfl
      simp only [removeEmptyEnds, if_neg heq, contours, List.filter_cons, hne, Bool.not_false,
        if_true]
      rw [ih e1 (by omega) h1n hes]

theorem drawContour_path_append (r : raster.Rasterizer) (c : List truetype.Point) :
    (drawContour r c).path = r.path ++ (drawContour ⟨[]⟩ c).path := by
  cases c with
  | nil => simp [drawContour]
  | cons p0 rest => rw [drawContour_path, drawContour_path]; simp

theorem foldl_drawContour_path (r : raster.Rasterizer) (cs : List (List truetype.Point)) :
    (cs.foldl drawContour r).path
      = r.path ++ ((cs.filter (fun c => !c.isEmpty)).map
          (fun c => (drawContour ⟨[]⟩ c).path)).flatten := by
  induction cs generalizing r with
  | nil => simp
  | cons c cs ih =>
    rw [List.foldl_cons, ih, drawContour_path_append]
    cases c with
    | nil => simp [drawContour]
    | cons p0 rest => simp [List.filter_cons]

/-- The check `endsValid n prev es` says that `prev :: es` is non-decreasing and
that no entry of `es` exceeds `n`; with `prev = 0` the entries are non-negative. -/
theorem endsValid_iff (n prev : Int) (es : List Int) :
    endsValid n prev es = true ↔
      (nonDecreasing (prev :: es) = true ∧ ∀ e ∈ es, e ≤ n) := by
  induction es generalizing prev with
  | nil => simp [endsValid, nonDecreasing]
  | cons e es ih =>
    simp only [endsValid, nonDecreasing, Bool.and_eq_true, decide_eq_true_eq, ih e,
      List.mem_cons, forall_eq_or_imp]
    tauto

/-- C8, refuted as stated: the offsets `End = [-1]` are non-decreasing and at most
the number of points, yet `addGlyph` fails on the slice `g.Point[0:-1]`. -/
theorem addGlyph_negative_end_fails :
    nonDecreasing [-1] = true ∧ (∀ e ∈ [(-1 : Int)], e ≤ 3) ∧
    addGlyph ⟨[]⟩ ⟨[⟨0, 0, 1⟩, ⟨400, 400, 0⟩, ⟨800, 0, 1⟩], [], [-1]⟩ = none := by
  decide

/-- C8, amended: when the offsets `g.End` are non-negative, non-decreasing and at
most the number of points (`endsValid`, read after the initial offset 0 of
`addGlyph`), `addGlyph` does not fail: it returns the cleared rasterizer after
`drawContour` has been run on the contours cut out by `g.End`, in order.  Its
path is the concatenation, in order, of the calls `drawContour` makes for the
non-empty contours; an empty contour adds no call; and the result equals the one
`addGlyph` builds for the same points with the `End` entries of the empty
contours removed, whose contours are exactly the non-empty ones, in order. -/
theorem addGlyph_skips_empty_contours (r : raster.Rasterizer) (g : truetype.GlyphBuf)
    (hvalid : endsValid g.Point.length 0 g.End = true) :
    addGlyph r g = some ((contours g.Point 0 g.End).foldl drawContour r.Clear) ∧
    ((contours g.Point 0 g.End).foldl drawContour r.Clear).path
      = (((contours g.Point 0 g.End).filter (fun c => !c.isEmpty)).map
          (fun c => (drawContour ⟨[]⟩ c).path)).flatten ∧
    addGlyph r { g with End := removeEmptyEnds 0 g.End } = addGlyph r g ∧
    contours g.Point 0 (removeEmptyEnds 0 g.End)
      = (contours g.Point 0 g.End).filter (fun c => !c.isEmpty) ∧
    (∀ r0 : raster.Rasterizer, drawContour r0 [] = r0) ∧
    (∀ (r0 : raster.Rasterizer) (e : Int) (es : List Int), 0 ≤ e →
      e ≤ (g.Point.length : Int) →
      addGlyphLoop g r0 e (e :: es) = addGlyphLoop g r0 e es) := by
  refine ⟨addGlyphLoop_contours g r.Clear 0 g.End (le_refl 0) hvalid, ?_, ?_,
    contours_removeEmptyEnds g.Point 0 g.End (le_refl 0) (by omega) hvalid,
    fun _ => rfl, ?_⟩
  · rw [foldl_drawContour_path]
    simp [raster.Rasterizer.Clear]
  · obtain ⟨r1, h1, h2⟩ :=
      addGlyphLoop_removeEmptyEnds g r.Clear 0 g.End (le_refl 0) hvalid
    unfold addGlyph
    rw [addGlyphLoop_congr g { g with End := removeEmptyEnds 0 g.End } rfl rfl]
    rw [h1]
    exact h2
  · intro r0 e es he0 hen
    obtain ⟨ps, hps, hempty⟩ := sliceExpr_ok g.Point g.PointSpare e e he0 (le_refl e) hen
    have hnil : ps = [] := hempty rfl
    subst hnil
    simp only [addGlyphLoop, hps, drawContour]

/-- Witness of the amended C8 on a glyph of three points with
`End = [0, 2, 2, 3]`: two contours are traced, two entries are empty. -/
theorem addGlyph_skips_empty_contours_witness :
    endsValid 3 0 [0, 2, 2, 3] = true ∧
    removeEmptyEnds 0 [0, 2, 2, 3] = [2, 3] ∧
    contours [⟨0, 0, 1⟩, ⟨400, 400, 0⟩, ⟨800, 0, 1⟩] 0 [0, 2, 2, 3]
      = [[], [⟨0, 0, 1⟩, ⟨400, 400, 0⟩], [], [⟨800, 0, 1⟩]] ∧
    addGlyph ⟨[raster.Prim.Add1 ⟨0, 0⟩]⟩
        ⟨[⟨0, 0, 1⟩, ⟨400, 400, 0⟩, ⟨800, 0, 1⟩], [], [0, 2, 2, 3]⟩
      = some ((contours [⟨0, 0, 1⟩, ⟨400, 400, 0⟩, ⟨800, 0, 1⟩] 0 [0, 2, 2, 3]).foldl
          drawContour (raster.Rasterizer.Clear ⟨[raster.Prim.Add1 ⟨0, 0⟩]⟩)) :=
  ⟨by decide, by decide, by decide,
    (addGlyph_skips_empty_contours ⟨[raster.Prim.Add1 ⟨0, 0⟩]⟩
      ⟨[⟨0, 0, 1⟩, ⟨400, 400, 0⟩, ⟨800, 0, 1⟩], [], [0, 2, 2, 3]⟩ (by decide)).1⟩

/-! ## `showNodes`: claims -/

theorem markerColour_eq (p : truetype.Point) :
    markerColour p = some (if onCurve p then red else cyan) := by
  have h2 : p.Flags % 2 = 0 ∨ p.Flags % 2 = 1 := by omega
  rcases h2 with h2 | h2 <;>
    simp [markerColour, onCurve, Nat.and_one_is_mod, h2, red, cyan]

theorem showNode_Rect (m : image.RGBA) (p : truetype.Point) :
    (showNode m p).Rect = m.Rect := by
  unfold showNode
  simp only [markerColour_eq, image.RGBA.Set, image.RGBA.Bounds]
  split
  · rfl
  · split <;> rfl

theorem showNode_pix (m : image.RGBA) (p : truetype.Point) (x y : Int) :
    (showNode m p).pix x y
      = if nodePixel p = (x, y) ∧ (image.Point.mk x y).In m.Rect = true
          then (if onCurve p then red else cyan) else m.pix x y := by
  unfold showNode
  simp only [markerColour_eq, image.RGBA.Set, image.RGBA.Bounds]
  by_cases hin : (image.Point.mk (nodePixel p).1 (nodePixel p).2).In m.Rect = true
  · simp only [hin, Bool.not_true, Bool.false_eq_true, if_false, if_true]
    by_cases hxy : x = (nodePixel p).1 ∧ y = (nodePixel p).2
    · obtain ⟨hx, hy⟩ := hxy
      subst hx hy
      simp [hin]
    · have hne : ¬ nodePixel p = (x, y) := by
        intro h
        apply hxy
        rw [h]
        exact ⟨rfl, rfl⟩
      simp [hxy, hne]
  · have hne : ¬ (nodePixel p = (x, y) ∧ (image.Point.mk x y).In m.Rect = true) := by
      rintro ⟨h1, h2⟩
      apply hin
      rw [h1]
      exact h2
    simp [hin, hne]

theorem overlayColour_outside (m : image.RGBA) (x y : Int) (hit : Option truetype.Point)
    (h : ¬ (image.Point.mk x y).In m.Rect = true) : overlayColour m x y hit = m.pix x y := by
  cases hit <;> simp [overlayColour, h]

/-- The effect of `showNodes` on arbitrary input, overflow of `rp` included: the
bounds are kept and every pixel holds `overlayColour` of the last point that
`showNodes` maps to it. -/
theorem showNodes_pix (m : image.RGBA) (pts : List truetype.Point) :
    (pts.foldl showNode m).Rect = m.Rect ∧
    ∀ x y : Int, (pts.foldl showNode m).pix x y = overlayColour m x y (lastNodeAt pts x y) := by
  induction pts using List.reverseRecOn with
  | nil => exact ⟨rfl, fun x y => rfl⟩
  | append_singleton pts p ih =>
    obtain ⟨hR, hpix⟩ := ih
    rw [List.foldl_append]
    refine ⟨by simp [List.foldl, showNode_Rect, hR], ?_⟩
    intro x y
    simp only [List.foldl, showNode_pix, hR, hpix, lastNodeAt, List.filter_append,
      List.getLast?_append]
    by_cases hin : (image.Point.mk x y).In m.Rect = true
    · by_cases hxy : nodePixel p = (x, y)
      · simp [hxy, hin, overlayColour]
      · simp [hxy, hin, List.filter_cons]
    · have h1 := overlayColour_outside m x y
        ((pts.filter (fun p => decide (nodePixel p = (x, y)))).getLast?) hin
      have h2 := overlayColour_outside m x y
        ((([p].filter (fun p => decide (nodePixel p = (x, y)))).getLast?).or
          ((pts.filter (fun p => decide (nodePixel p = (x, y)))).getLast?)) hin
      rw [h2, h1, if_neg]
      rintro ⟨_, h⟩
      exact hin h

theorem nodePixel_of_noOverflow {p : truetype.Point} (h : rpNoOverflow p) :
    nodePixel p = (20 + p.X.tdiv 4, 380 - p.Y.tdiv 4) := by
  unfold nodePixel
  rw [rp_of_noOverflow h]
  simp only [Int.mul_comm 256, Int.mul_tdiv_cancel _ (by decide : (256 : Int) ≠ 0)]

theorem lastNodeAt_of_noOverflow (pts : List truetype.Point)
    (h : ∀ p ∈ pts, rpNoOverflow p) (x y : Int) :
    lastNodeAt pts x y = lastPointAt pts x y := by
  unfold lastNodeAt lastPointAt
  congr 1
  apply List.filter_congr
  intro p hp
  rw [nodePixel_of_noOverflow (h p hp)]
  simp

/-- C9, refuted as stated: on the 400 x 400 white canvas, the on-curve glyph point
`(67108904, 0)` has `(20 + p.X/4, 380 - p.Y/4) = (16777246, 380)` outside the
bounds, yet `showNodes` turns the pixel `(30, 380)` red, because `rp` wraps
around in 32 bits. -/
theorem showNodes_overflow_stamp :
    (20 + (67108904 : Int).tdiv 4 = 16777246 ∧ 380 - (0 : Int).tdiv 4 = 380) ∧
    (image.Point.mk 16777246 380).In whiteCanvas.Rect = false ∧
    whiteCanvas.pix 30 380 = ⟨255, 255, 255, 255⟩ ∧
    (showNodes whiteCanvas ⟨[⟨67108904, 0, 1⟩], [], [1]⟩).pix 30 380 = ⟨255, 0, 0, 255⟩ := by
  decide

/-- C9, amended: for every canvas `m` and every glyph `g` whose points are
mapped by `rp` without 32-bit overflow, `showNodes` keeps the bounds of the
canvas and leaves at every pixel `(x, y)` the colour `m` had, except where
`(x, y)` is inside the bounds and is `(20 + p.X/4, 380 - p.Y/4)` for some glyph
point `p`: there it leaves the marker colour of the last such point, red if
on-curve and cyan if off-curve.  A glyph whose points all map outside the bounds
leaves the canvas unchanged. -/
theorem showNodes_frame (m : image.RGBA) (g : truetype.GlyphBuf)
    (hno : ∀ p ∈ g.Point, rpNoOverflow p) :
    (showNodes m g).Rect = m.Rect ∧
    (∀ x y : Int, (showNodes m g).pix x y = overlayColour m x y (lastPointAt g.Point x y)) ∧
    ((∀ p ∈ g.Point,
        (image.Point.mk (20 + p.X.tdiv 4) (380 - p.Y.tdiv 4)).In m.Rect = false) →
      showNodes m g = m) := by
  obtain ⟨hR, hpix⟩ := showNodes_pix m g.Point
  have hpix2 : ∀ x y : Int,
      (showNodes m g).pix x y = overlayColour m x y (lastPointAt g.Point x y) := by
    intro x y
    rw [← lastNodeAt_of_noOverflow g.Point hno x y]
    exact hpix x y
  refine ⟨hR, hpix2, ?_⟩
  intro hout
  have hsame : ∀ x y : Int, (showNodes m g).pix x y = m.pix x y := by
    intro x y
    rw [hpix2]
    unfold overlayColour lastPointAt
    cases hl : (g.Point.filter
      (fun p => decide (20 + p.X.tdiv 4 = x ∧ 380 - p.Y.tdiv 4 = y))).getLast? with
    | none => rfl
    | some p =>
      have hmem := List.mem_of_getLast?_eq_some hl
      rw [List.mem_filter] at hmem
      obtain ⟨hp, hxy⟩ := hmem
      simp only [decide_eq_true_eq] at hxy
      have := hout p hp
      rw [hxy.1, hxy.2] at this
      simp [this]
  have hR2 : (showNodes m g).Rect = m.Rect := hR
  cases hs : showNodes m g with
  | mk R1 pix1 =>
    cases m with
    | mk R0 pix0 =>
      rw [hs] at hsame hR2
      simp only at hsame hR2
      subst hR2
      congr 1
      funext x y
      exact hsame x y

/-- Witness of the amended C9: an on-curve and then an off-curve point on the
pixel `(30, 370)` of the white canvas, and a point mapped outside the bounds. -/
theorem showNodes_frame_witness :
    (∀ p ∈ [(⟨40, 40, 1⟩ : truetype.Point), ⟨41, 43, 0⟩, ⟨4000, 0, 1⟩], rpNoOverflow p) ∧
    (showNodes whiteCanvas ⟨[⟨40, 40, 1⟩, ⟨41, 43, 0⟩, ⟨4000, 0, 1⟩], [], [3]⟩).pix 30 370
      = cyan ∧
    ((showNodes whiteCanvas ⟨[⟨40, 40, 1⟩, ⟨41, 43, 0⟩, ⟨4000, 0, 1⟩], [], [3]⟩).Rect
        = whiteCanvas.Rect ∧
      (∀ x y : Int,
        (showNodes whiteCanvas ⟨[⟨40, 40, 1⟩, ⟨41, 43, 0⟩, ⟨4000, 0, 1⟩], [], [3]⟩).pix x y
          = overlayColour whiteCanvas x y
              (lastPointAt [⟨40, 40, 1⟩, ⟨41, 43, 0⟩, ⟨4000, 0, 1⟩] x y)) ∧
      ((∀ p ∈ [(⟨40, 40, 1⟩ : truetype.Point), ⟨41, 43, 0⟩, ⟨4000, 0, 1⟩],
          (image.Point.mk (20 + p.X.tdiv 4) (380 - p.Y.tdiv 4)).In whiteCanvas.Rect = false) →
        showNodes whiteCanvas ⟨[⟨40, 40, 1⟩, ⟨41, 43, 0⟩, ⟨4000, 0, 1⟩], [], [3]⟩
          = whiteCanvas)) :=
  ⟨by decide, by decide,
    showNodes_frame whiteCanvas ⟨[⟨40, 40, 1⟩, ⟨41, 43, 0⟩, ⟨4000, 0, 1⟩], [], [3]⟩
      (by decide)⟩

end Ttf2Raster
